import Mathlib

/-!
Shallow embedding of `aslam::VisualNPipeline` (visual-npipeline.cc) and the
constructor validation of the multi-camera pipeline.  The two shared maps
`processing_` and `completed_` are `std::map<int64_t, VisualNFrame::Ptr>`;
they are embedded as association lists sorted strictly ascending by key.
Machine `int64_t` timestamps are embedded as `Int` (no arithmetic in the
source can overflow for the quantities involved: only subtraction, absolute
value and comparisons are performed on them).
-/

namespace AslamCV

/-- A per-camera frame produced by a `VisualPipeline`: owning camera index,
post-processing timestamp in nanoseconds, and an opaque payload. -/
structure VisualFrame where
  cameraIndex : Nat
  timestampNs : Int
  payload : Nat
deriving DecidableEq, Repr

/-- `VisualNFrame`: one optional per-camera frame slot per camera. -/
structure VisualNFrame where
  frames : List (Option VisualFrame)
deriving DecidableEq, Repr

/-- `VisualNFrame::getNumFrames()`. -/
def VisualNFrame.numFrames (nf : VisualNFrame) : Nat := nf.frames.length

/-- `VisualNFrame::isFrameSet(i)`. -/
def VisualNFrame.isFrameSet (nf : VisualNFrame) (i : Nat) : Bool :=
  (nf.frames.getD i none).isSome

/-- `VisualNFrame::getFrameShared(i)` (null pointer becomes `none`). -/
def VisualNFrame.getFrameShared (nf : VisualNFrame) (i : Nat) : Option VisualFrame :=
  nf.frames.getD i none

/-- `VisualNFrame::setFrame(i, frame)`. -/
def VisualNFrame.setFrame (nf : VisualNFrame) (i : Nat) (f : VisualFrame) : VisualNFrame :=
  ⟨nf.frames.set i (some f)⟩

/-- `new VisualNFrame(output_camera_system_)`: all `n` slots empty. -/
def emptyNFrame (n : Nat) : VisualNFrame := ⟨List.replicate n none⟩

/-- The completeness loop of `VisualNPipeline::work`:
`for i < getNumFrames(): all_received &= isFrameSet(i)`. -/
def allReceived (nf : VisualNFrame) : Bool :=
  (List.range nf.numFrames).all (fun i => nf.isFrameSet i)

/-! ### `std::map<int64_t, VisualNFrame::Ptr>` as a sorted association list -/

abbrev NFrameMap := List (Int × VisualNFrame)

/-- Keys of the map, in storage order. -/
def keysOf (m : NFrameMap) : List Int := m.map Prod.fst

/-- The `std::map` storage invariant: keys strictly ascending. -/
def KeysSorted (m : NFrameMap) : Prop := List.Pairwise (· < ·) (keysOf m)

/-- `m.find(k)`-style lookup. -/
def mapLookup (k : Int) : NFrameMap → Option VisualNFrame
  | [] => none
  | (k', v) :: t => if k = k' then some v else mapLookup k t

/-- `std::map::insert({k, v})`: inserts in key order; if the key is already
present the map is unchanged (insert does not overwrite). -/
def mapInsert (k : Int) (v : VisualNFrame) : NFrameMap → NFrameMap
  | [] => [(k, v)]
  | (k', v') :: t =>
    if k < k' then (k, v) :: (k', v') :: t
    else if k = k' then (k', v') :: t
    else (k', v') :: mapInsert k v t

/-- Mutation of the mapped value through an iterator
(`proc_it->second->setFrame(...)`): replace the value stored at `k`. -/
def mapUpdate (k : Int) (v : VisualNFrame) : NFrameMap → NFrameMap
  | [] => []
  | (k', v') :: t =>
    if k = k' then (k', v) :: t else (k', v') :: mapUpdate k v t

/-- `std::map::erase(it)` at the entry of key `k`. -/
def mapErase (k : Int) : NFrameMap → NFrameMap
  | [] => []
  | (k', v') :: t => if k = k' then t else (k', v') :: mapErase k t

/-! ### The candidate search of `VisualNPipeline::work`

`processing_.lower_bound(ts)` followed by the iterator adjustments
`if (it != begin) --it;` and the two-candidate comparison. -/

/-- `std::map::lower_bound(ts)` on the sorted key list: index of the first
key that is not less than `ts` (the length when every key is less). -/
def lowerBound (ts : Int) : List Int → Nat
  | [] => 0
  | k :: t => if ts ≤ k then 0 else lowerBound ts t + 1

/-- `auto it = lower_bound(ts); if (it != processing_.begin()) --it;` -/
def bracketIdx (keys : List Int) (ts : Int) : Nat :=
  if lowerBound ts keys = 0 then 0 else lowerBound ts keys - 1

/-- The index `proc_it` points at after comparing the bracket entry with its
successor (`if (++it != end)` … `if (time_diff < min_time_diff)`). -/
def chosenIdx (keys : List Int) (ts : Int) : Nat :=
  if bracketIdx keys ts + 1 < keys.length then
    if ((keys.getD (bracketIdx keys ts + 1) 0) - ts).natAbs
        < ((keys.getD (bracketIdx keys ts) 0) - ts).natAbs
    then bracketIdx keys ts + 1
    else bracketIdx keys ts
  else bracketIdx keys ts

/-- The reference timestamp of the in-progress bundle the search selects. -/
def chosenKey (keys : List Int) (ts : Int) : Int := keys.getD (chosenIdx keys ts) 0

/-- `min_time_diff` at the end of the candidate search. -/
def minTimeDiff (keys : List Int) (ts : Int) : Nat := (chosenKey keys ts - ts).natAbs

/-! ### Pipeline shared state and `work` -/

/-- The state guarded by `mutex_`: `processing_` and `completed_`. -/
structure NPipelineState where
  processing : NFrameMap
  completed : NFrameMap
deriving DecidableEq, Repr

/-- The `create_new_nframes` flag of `VisualNPipeline::work`: true when
`processing_` is empty, or when the closest candidate's timestamp difference
exceeds `timestamp_tolerance_ns_`. -/
def createNew (processing : NFrameMap) (tol ts : Int) : Bool :=
  processing.isEmpty || ((minTimeDiff (keysOf processing) ts : Int) > tol)

/-- The key `proc_it` addresses after the conditional insert: the frame's own
timestamp when a new `VisualNFrame` is created, the chosen candidate key
otherwise. -/
def targetKey (processing : NFrameMap) (tol ts : Int) : Int :=
  if createNew processing tol ts then ts else chosenKey (keysOf processing) ts

/-- The state after `if (create_new_nframes) { processing_.insert(...) }`. -/
def preInstallState (N : Nat) (tol : Int) (frame : VisualFrame) (st : NPipelineState) :
    NPipelineState :=
  if createNew st.processing tol frame.timestampNs then
    { st with processing := mapInsert frame.timestampNs (emptyNFrame N) st.processing }
  else st

/-- The tail of `VisualNPipeline::work`: install the frame at the entry of
key `k` (`proc_it->second->setFrame(camera_index, frame)`), then, when every
slot is filled, move the bundle from `processing_` to `completed_`
(`completed_.insert(*proc_it); processing_.erase(proc_it);` followed by
`cv_new_nframe_.notify_all()`). -/
def installAt (k : Int) (camIdx : Nat) (frame : VisualFrame) (st : NPipelineState) :
    NPipelineState :=
  match mapLookup k st.processing with
  | none => st
  | some nf =>
    let nf2 := nf.setFrame camIdx frame
    if allReceived nf2 then
      { processing := mapErase k st.processing, completed := mapInsert k nf2 st.completed }
    else
      { st with processing := mapUpdate k nf2 st.processing }

/-- `VisualNPipeline::work(camera_index, image, timestamp)` after the
per-camera `VisualPipeline` has produced `frame` (the critical section under
`mutex_`).  `N` is `numCameras`, `tol` is `timestamp_tolerance_ns_`. -/
def work (N : Nat) (tol : Int) (camIdx : Nat) (frame : VisualFrame) (st : NPipelineState) :
    NPipelineState :=
  installAt (targetKey st.processing tol frame.timestampNs) camIdx frame
    (preInstallState N tol frame st)

/-! ### Completion-queue accessors -/

/-- `VisualNPipeline::getNext()`: pop the oldest completed bundle, `none` on
an empty queue.  The returned pair is (reference timestamp, bundle). -/
def getNext (st : NPipelineState) : Option (Int × VisualNFrame) × NPipelineState :=
  match st.completed with
  | [] => (none, st)
  | e :: t => (some e, ⟨st.processing, t⟩)

/-- `VisualNPipeline::getLatestAndClear()`: pop the newest completed bundle
(`completed_.rbegin()`), clear `completed_`, and erase every `processing_`
entry whose key is `<=` the returned timestamp (the `while` loop from
`processing_.begin()`). -/
def getLatestAndClear (st : NPipelineState) : Option (Int × VisualNFrame) × NPipelineState :=
  match st.completed.getLast? with
  | none => (none, st)
  | some e => (some e, ⟨st.processing.dropWhile (fun p => p.1 ≤ e.1), []⟩)

/-- Delivering a list of produced frames to the correlator in order,
starting from a given state. -/
def runAll (N : Nat) (tol : Int) (frames : List VisualFrame) : NPipelineState :=
  frames.foldl (fun st f => work N tol f.cameraIndex f st) ⟨[], []⟩

/-- Observation helper: the bundle stored under key `k`, wherever it lives
(`processing_` is checked first, then `completed_`). -/
def bundleAt (st : NPipelineState) (k : Int) : Option VisualNFrame :=
  match mapLookup k st.processing with
  | some nf => some nf
  | none => mapLookup k st.completed

/-! ### `processImage` and the worker-side index check -/

/-- A task sitting in the `ThreadPool` queue. -/
structure Task where
  cameraIndex : Nat
  timestampNs : Int
deriving DecidableEq, Repr

/-- `VisualNPipeline::processImage`: enqueues the work item unconditionally —
the source performs no validation of `camera_index` before
`thread_pool_->enqueue(&VisualNPipeline::work, ...)`. -/
def processImage (camIdx : Nat) (ts : Int) (queue : List Task) : List Task :=
  queue ++ [⟨camIdx, ts⟩]

/-- The only index check in the source, performed asynchronously inside
`work`: `CHECK_LE(camera_index, pipelines_.size())`. -/
def workIndexCheck (camIdx numCameras : Nat) : Bool := camIdx ≤ numCameras

/-- The check the specification requires: accept exactly `0..N-1`
(`camera_index < numCameras`). -/
def claimedIndexCheck (camIdx numCameras : Nat) : Bool := camIdx < numCameras

/-! ### Constructor validation -/

/-- An `NCamera` system: the ordered list of camera object identities
(`getCameraShared(i).get()` pointer values are embedded as `Nat` tokens). -/
structure NCameraModel where
  cameras : List Nat
deriving DecidableEq, Repr

/-- A per-camera `VisualPipeline`: the object identities of its declared
input and output cameras. -/
structure VisualPipelineModel where
  inputCameraId : Nat
  outputCameraId : Nat
deriving DecidableEq, Repr

/-- The `CHECK`s of the `VisualNPipeline` constructor, as one predicate:
camera count positive, input/output/pipeline counts equal, tolerance
non-negative, every pipeline present with input and output cameras identical
(same object) to the corresponding camera-system entries, and a positive
thread count.  (A nullable pipeline entry is `none`.) -/
def constructorChecks (numThreads : Nat) (pipelines : List (Option VisualPipelineModel))
    (input output : NCameraModel) (tol : Int) : Bool :=
  decide (0 < input.cameras.length) &&
  decide (input.cameras.length = output.cameras.length) &&
  decide (input.cameras.length = pipelines.length) &&
  decide (0 ≤ tol) &&
  (List.range pipelines.length).all (fun i =>
    match pipelines.getD i none with
    | none => false
    | some p =>
      decide (input.cameras.getD i 0 = p.inputCameraId) &&
      decide (output.cameras.getD i 0 = p.outputCameraId)) &&
  decide (0 < numThreads)

/-! ### List helpers -/

theorem getD_eq_get {α : Type} (d : α) :
    ∀ (l : List α) (i : Nat), (h : i < l.length) → l.getD i d = l.get ⟨i, h⟩ := by
  intro l
  induction l with
  | nil => intro i h; simp at h
  | cons a t ih =>
    intro i h
    cases i with
    | zero => rfl
    | succ j => simpa using ih j (Nat.lt_of_succ_lt_succ h)

theorem set_getD_self {α : Type} (d v : α) :
    ∀ (l : List α) (i : Nat), i < l.length → (l.set i v).getD i d = v := by
  intro l
  induction l with
  | nil => intro i h; simp at h
  | cons a t ih =>
    intro i h
    cases i with
    | zero => rfl
    | succ j => simpa using ih j (Nat.lt_of_succ_lt_succ h)

theorem set_getD_ne {α : Type} (d v : α) :
    ∀ (l : List α) (i j : Nat), i ≠ j → (l.set i v).getD j d = l.getD j d := by
  intro l
  induction l with
  | nil => intro i j _; simp
  | cons a t ih =>
    intro i j hne
    cases i with
    | zero =>
      cases j with
      | zero => exact absurd rfl hne
      | succ j' => rfl
    | succ i' =>
      cases j with
      | zero => rfl
      | succ j' => simpa using ih i' j' (fun h => hne (by rw [h]))

theorem getD_replicate_none :
    ∀ (n i : Nat), (List.replicate n (none : Option VisualFrame)).getD i none = none := by
  intro n
  induction n with
  | zero => intro i; simp
  | succ m ih =>
    intro i
    cases i with
    | zero => rfl
    | succ j => simp [List.replicate, ih j]

theorem sorted_get_lt {l : List Int} (hs : List.Pairwise (· < ·) l)
    {i j : Nat} (hij : i < j) (hj : j < l.length) :
    l.get ⟨i, Nat.lt_trans hij hj⟩ < l.get ⟨j, hj⟩ :=
  List.pairwise_iff_get.mp hs ⟨i, Nat.lt_trans hij hj⟩ ⟨j, hj⟩ hij

theorem sorted_getD_lt {l : List Int} (hs : List.Pairwise (· < ·) l)
    {i j : Nat} (hij : i < j) (hj : j < l.length) :
    l.getD i 0 < l.getD j 0 := by
  rw [getD_eq_get 0 l i (Nat.lt_trans hij hj), getD_eq_get 0 l j hj]
  exact sorted_get_lt hs hij hj

/-! ### `lowerBound` facts -/

theorem lowerBound_le_length (ts : Int) : ∀ l : List Int, lowerBound ts l ≤ l.length := by
  intro l
  induction l with
  | nil => simp [lowerBound]
  | cons k t ih =>
    by_cases h : ts ≤ k
    · simp [lowerBound, h]
    · simpa [lowerBound, h] using ih

theorem getD_lt_of_lt_lowerBound (ts : Int) :
    ∀ (l : List Int) (i : Nat), i < lowerBound ts l → l.getD i 0 < ts := by
  intro l
  induction l with
  | nil => intro i h; simp [lowerBound] at h
  | cons k t ih =>
    intro i h
    by_cases hk : ts ≤ k
    · simp [lowerBound, hk] at h
    · rw [lowerBound] at h
      simp only [if_neg hk] at h
      cases i with
      | zero => simpa using lt_of_not_le hk
      | succ j => simpa using ih j (Nat.lt_of_succ_lt_succ h)

theorem le_getD_lowerBound (ts : Int) :
    ∀ l : List Int, lowerBound ts l < l.length → ts ≤ l.getD (lowerBound ts l) 0 := by
  intro l
  induction l with
  | nil => intro h; simp [lowerBound] at h
  | cons k t ih =>
    intro h
    by_cases hk : ts ≤ k
    · simp [lowerBound, hk]
    · rw [lowerBound] at h ⊢
      simp only [if_neg hk] at h ⊢
      simpa using ih (Nat.lt_of_succ_lt_succ h)

/-! ### Association-map lemmas -/

theorem mapLookup_eq_none_iff (k : Int) :
    ∀ m : NFrameMap, mapLookup k m = none ↔ k ∉ keysOf m := by
  intro m
  induction m with
  | nil => simp [mapLookup, keysOf]
  | cons p t ih =>
    obtain ⟨k', v'⟩ := p
    by_cases h : k = k'
    · simp [mapLookup, keysOf, h]
    · simp [mapLookup, keysOf, h, ih]

theorem mapLookup_mapInsert_self (k : Int) (v : VisualNFrame) :
    ∀ m : NFrameMap, mapLookup k m = none → mapLookup k (mapInsert k v m) = some v := by
  intro m
  induction m with
  | nil => intro _; simp [mapInsert, mapLookup]
  | cons p t ih =>
    obtain ⟨k', v'⟩ := p
    intro hnone
    rw [mapLookup] at hnone
    by_cases heq : k = k'
    · simp [heq] at hnone
    · rw [if_neg heq] at hnone
      rcases lt_trichotomy k k' with hlt | heq2 | hgt
      · simp [mapInsert, hlt, mapLookup]
      · exact absurd heq2 heq
      · rw [mapInsert, if_neg (by omega), if_neg heq, mapLookup, if_neg heq]
        exact ih hnone

theorem mapLookup_mapInsert_ne (k k' : Int) (v : VisualNFrame) (hne : k' ≠ k) :
    ∀ m : NFrameMap, mapLookup k' (mapInsert k v m) = mapLookup k' m := by
  intro m
  induction m with
  | nil => simp [mapInsert, mapLookup, hne]
  | cons p t ih =>
    obtain ⟨k0, v0⟩ := p
    rcases lt_trichotomy k k0 with hlt | heq | hgt
    · simp [mapInsert, hlt, mapLookup, hne]
    · simp [mapInsert, heq, mapLookup]
    · rw [mapInsert, if_neg (by omega), if_neg (by omega)]
      by_cases h0 : k' = k0
      · simp [mapLookup, h0]
      · simp [mapLookup, h0, ih]

theorem mem_keysOf_mapInsert (k a : Int) (v : VisualNFrame) :
    ∀ m : NFrameMap, a ∈ keysOf (mapInsert k v m) → a = k ∨ a ∈ keysOf m := by
  intro m
  induction m with
  | nil => simp [mapInsert, keysOf]
  | cons p t ih =>
    obtain ⟨k0, v0⟩ := p
    intro ha
    rcases lt_trichotomy k k0 with hlt | heq | hgt
    · simpa [mapInsert, hlt, keysOf] using ha
    · right; simpa [mapInsert, heq, keysOf] using ha
    · rw [mapInsert, if_neg (by omega), if_neg (by omega)] at ha
      simp only [keysOf, List.map_cons, List.mem_cons] at ha ⊢
      rcases ha with h0 | h1
      · exact Or.inr (Or.inl h0)
      · rcases ih h1 with h | h
        · exact Or.inl h
        · exact Or.inr (Or.inr h)

theorem KeysSorted_mapInsert (k : Int) (v : VisualNFrame) :
    ∀ m : NFrameMap, KeysSorted m → KeysSorted (mapInsert k v m) := by
  intro m
  induction m with
  | nil => intro _; simp [mapInsert, KeysSorted, keysOf]
  | cons p t ih =>
    obtain ⟨k0, v0⟩ := p
    intro hs
    rw [KeysSorted, keysOf, List.map_cons, List.pairwise_cons] at hs
    obtain ⟨hhead, htail⟩ := hs
    rcases lt_trichotomy k k0 with hlt | heq | hgt
    · rw [mapInsert, if_pos hlt]
      rw [KeysSorted, keysOf]
      simp only [List.map_cons, List.pairwise_cons]
      refine ⟨?_, hhead, htail⟩
      intro a ha
      simp only [List.mem_cons] at ha
      rcases ha with rfl | ha
      · exact hlt
      · exact lt_trans hlt (hhead a ha)
    · rw [mapInsert, if_neg (by omega), if_pos heq]
      rw [KeysSorted, keysOf]
      simp only [List.map_cons, List.pairwise_cons]
      exact ⟨hhead, htail⟩
    · rw [mapInsert, if_neg (by omega), if_neg (by omega)]
      rw [KeysSorted, keysOf]
      simp only [List.map_cons, List.pairwise_cons]
      constructor
      · intro a ha
        rcases mem_keysOf_mapInsert k a v t ha with rfl | h
        · exact hgt
        · exact hhead a h
      · exact ih htail

theorem mapInsert_eq_of_mem (k : Int) (v : VisualNFrame) :
    ∀ m : NFrameMap, KeysSorted m → k ∈ keysOf m → mapInsert k v m = m := by
  intro m
  induction m with
  | nil => intro _ hk; simp [keysOf] at hk
  | cons p t ih =>
    obtain ⟨k0, v0⟩ := p
    intro hs hk
    rw [KeysSorted, keysOf, List.map_cons, List.pairwise_cons] at hs
    obtain ⟨hhead, htail⟩ := hs
    simp only [keysOf, List.map_cons, List.mem_cons] at hk
    rcases lt_trichotomy k k0 with hlt | heq | hgt
    · exfalso
      rcases hk with rfl | hk
      · omega
      · exact absurd (hhead k hk) (by omega)
    · rw [mapInsert, if_neg (by omega), if_pos heq]
    · rw [mapInsert, if_neg (by omega), if_neg (by omega)]
      rcases hk with rfl | hk
      · omega
      · rw [ih htail hk]

theorem mapErase_sublist (k : Int) : ∀ m : NFrameMap, (mapErase k m).Sublist m := by
  intro m
  induction m with
  | nil => simp [mapErase]
  | cons p t ih =>
    obtain ⟨k0, v0⟩ := p
    by_cases h : k = k0
    · rw [mapErase, if_pos h]
      exact List.sublist_cons_of_sublist _ (List.Sublist.refl t)
    · rw [mapErase, if_neg h]
      exact List.Sublist.cons₂ _ ih

theorem KeysSorted_mapErase (k : Int) (m : NFrameMap) (hs : KeysSorted m) :
    KeysSorted (mapErase k m) :=
  List.Pairwise.sublist (List.Sublist.map Prod.fst (mapErase_sublist k m)) hs

theorem mapLookup_mapErase_self (k : Int) :
    ∀ m : NFrameMap, KeysSorted m → mapLookup k (mapErase k m) = none := by
  intro m
  induction m with
  | nil => intro _; simp [mapErase, mapLookup]
  | cons p t ih =>
    obtain ⟨k0, v0⟩ := p
    intro hs
    rw [KeysSorted, keysOf, List.map_cons, List.pairwise_cons] at hs
    obtain ⟨hhead, htail⟩ := hs
    by_cases h : k = k0
    · rw [mapErase, if_pos h]
      rw [mapLookup_eq_none_iff]
      intro hk
      exact absurd (hhead k hk) (by omega)
    · rw [mapErase, if_neg h, mapLookup, if_neg h]
      exact ih htail

theorem mapLookup_mapErase_ne (k k' : Int) (hne : k' ≠ k) :
    ∀ m : NFrameMap, mapLookup k' (mapErase k m) = mapLookup k' m := by
  intro m
  induction m with
  | nil => simp [mapErase]
  | cons p t ih =>
    obtain ⟨k0, v0⟩ := p
    by_cases h : k = k0
    · rw [mapErase, if_pos h, mapLookup, if_neg (by omega)]
    · rw [mapErase, if_neg h, mapLookup, mapLookup]
      by_cases h' : k' = k0
      · rw [if_pos h', if_pos h']
      · rw [if_neg h', if_neg h', ih]

theorem keysOf_mapUpdate (k : Int) (v : VisualNFrame) :
    ∀ m : NFrameMap, keysOf (mapUpdate k v m) = keysOf m := by
  intro m
  induction m with
  | nil => simp [mapUpdate]
  | cons p t ih =>
    obtain ⟨k0, v0⟩ := p
    by_cases h : k = k0
    · simp [mapUpdate, h, keysOf]
    · simp only [mapUpdate, if_neg h, keysOf, List.map_cons] at ih ⊢
      rw [ih]

theorem mapLookup_mapUpdate_self (k : Int) (v : VisualNFrame) :
    ∀ m : NFrameMap, (mapLookup k m).isSome → mapLookup k (mapUpdate k v m) = some v := by
  intro m
  induction m with
  | nil => intro h; simp [mapLookup] at h
  | cons p t ih =>
    obtain ⟨k0, v0⟩ := p
    intro hsome
    by_cases h : k = k0
    · rw [mapUpdate, if_pos h, mapLookup, if_pos h]
    · rw [mapLookup, if_neg h] at hsome
      rw [mapUpdate, if_neg h, mapLookup, if_neg h]
      exact ih hsome

theorem mapLookup_mapUpdate_ne (k k' : Int) (v : VisualNFrame) (hne : k' ≠ k) :
    ∀ m : NFrameMap, mapLookup k' (mapUpdate k v m) = mapLookup k' m := by
  intro m
  induction m with
  | nil => simp [mapUpdate]
  | cons p t ih =>
    obtain ⟨k0, v0⟩ := p
    by_cases h : k = k0
    · rw [mapUpdate, if_pos h, mapLookup, mapLookup, if_neg (by omega), if_neg (by omega)]
    · rw [mapUpdate, if_neg h, mapLookup, mapLookup]
      by_cases h' : k' = k0
      · rw [if_pos h', if_pos h']
      · rw [if_neg h', if_neg h', ih]

/-! ### `VisualNFrame` slot lemmas -/

theorem length_setFrame (nf : VisualNFrame) (i : Nat) (f : VisualFrame) :
    (nf.setFrame i f).frames.length = nf.frames.length := by
  simp [VisualNFrame.setFrame]

theorem getFrameShared_setFrame_self (nf : VisualNFrame) (i : Nat) (f : VisualFrame)
    (h : i < nf.frames.length) : (nf.setFrame i f).getFrameShared i = some f := by
  simp only [VisualNFrame.setFrame, VisualNFrame.getFrameShared]
  exact set_getD_self none (some f) nf.frames i h

theorem getFrameShared_setFrame_ne (nf : VisualNFrame) (i j : Nat) (f : VisualFrame)
    (h : i ≠ j) : (nf.setFrame i f).getFrameShared j = nf.getFrameShared j := by
  simp only [VisualNFrame.setFrame, VisualNFrame.getFrameShared]
  exact set_getD_ne none (some f) nf.frames i j h

theorem isFrameSet_setFrame_self (nf : VisualNFrame) (i : Nat) (f : VisualFrame)
    (h : i < nf.frames.length) : (nf.setFrame i f).isFrameSet i = true := by
  have := getFrameShared_setFrame_self nf i f h
  simp only [VisualNFrame.getFrameShared] at this
  show ((nf.setFrame i f).frames.getD i none).isSome = true
  rw [this]
  rfl

theorem isFrameSet_setFrame_ne (nf : VisualNFrame) (i j : Nat) (f : VisualFrame)
    (h : i ≠ j) : (nf.setFrame i f).isFrameSet j = nf.isFrameSet j := by
  have := getFrameShared_setFrame_ne nf i j f h
  simp only [VisualNFrame.getFrameShared] at this
  show ((nf.setFrame i f).frames.getD j none).isSome = (nf.frames.getD j none).isSome
  rw [this]

theorem allReceived_iff (nf : VisualNFrame) :
    allReceived nf = true ↔ ∀ i < nf.numFrames, nf.isFrameSet i = true := by
  simp [allReceived, List.all_eq_true]

theorem isFrameSet_emptyNFrame (n i : Nat) : (emptyNFrame n).isFrameSet i = false := by
  simp [emptyNFrame, VisualNFrame.isFrameSet, getD_replicate_none]

/-! ### The candidate search selects a nearest in-progress bundle -/

theorem bracketIdx_lt_length (keys : List Int) (ts : Int) (hne : keys ≠ []) :
    bracketIdx keys ts < keys.length := by
  have hn : 0 < keys.length := List.length_pos.mpr hne
  have hlb := lowerBound_le_length ts keys
  rw [bracketIdx]
  by_cases h0 : lowerBound ts keys = 0
  · simp only [if_pos h0]; omega
  · simp only [if_neg h0]; omega

theorem chosenIdx_lt_length (keys : List Int) (ts : Int) (hne : keys ≠ []) :
    chosenIdx keys ts < keys.length := by
  have hb := bracketIdx_lt_length keys ts hne
  rw [chosenIdx]
  by_cases h1 : bracketIdx keys ts + 1 < keys.length
  · simp only [if_pos h1]
    split <;> omega
  · simp only [if_neg h1]; exact hb

theorem chosenKey_mem (keys : List Int) (ts : Int) (hne : keys ≠ []) :
    chosenKey keys ts ∈ keys := by
  have h := chosenIdx_lt_length keys ts hne
  rw [chosenKey, getD_eq_get 0 keys _ h]
  exact List.get_mem keys _ h

theorem chosen_le_bracket (keys : List Int) (ts : Int) :
    ((keys.getD (chosenIdx keys ts) 0) - ts).natAbs
      ≤ ((keys.getD (bracketIdx keys ts) 0) - ts).natAbs := by
  rw [chosenIdx]
  split
  · split
    · omega
    · exact le_refl _
  · exact le_refl _

theorem chosen_le_bracket_succ (keys : List Int) (ts : Int)
    (hlt : bracketIdx keys ts + 1 < keys.length) :
    ((keys.getD (chosenIdx keys ts) 0) - ts).natAbs
      ≤ ((keys.getD (bracketIdx keys ts + 1) 0) - ts).natAbs := by
  rw [chosenIdx, if_pos hlt]
  split
  · exact le_refl _
  · omega

theorem minTimeDiff_le (keys : List Int) (ts : Int) (hs : List.Pairwise (· < ·) keys)
    (hne : keys ≠ []) (j : Nat) (hj : j < keys.length) :
    minTimeDiff keys ts ≤ (keys.getD j 0 - ts).natAbs := by
  have hn : 0 < keys.length := List.length_pos.mpr hne
  have hlb := lowerBound_le_length ts keys
  have hmono : ∀ a b : Nat, a < b → b < keys.length → keys.getD a 0 < keys.getD b 0 :=
    fun a b hab hb => sorted_getD_lt hs hab hb
  have hb1 := chosen_le_bracket keys ts
  rw [minTimeDiff, chosenKey]
  by_cases h0 : lowerBound ts keys = 0
  · -- every key is at least ts: the first key is nearest
    have hbidx : bracketIdx keys ts = 0 := by rw [bracketIdx, if_pos h0]
    have hts0 : ts ≤ keys.getD 0 0 := by
      have h := le_getD_lowerBound ts keys (by omega)
      rwa [h0] at h
    have hjge : keys.getD 0 0 ≤ keys.getD j 0 := by
      rcases Nat.eq_zero_or_pos j with rfl | hjpos
      · exact le_refl _
      · exact le_of_lt (hmono 0 j hjpos hj)
    rw [hbidx] at hb1
    omega
  · have hbidx : bracketIdx keys ts = lowerBound ts keys - 1 := by rw [bracketIdx, if_neg h0]
    have hlow : keys.getD (lowerBound ts keys - 1) 0 < ts :=
      getD_lt_of_lt_lowerBound ts keys _ (by omega)
    have hjlow : j < lowerBound ts keys →
        keys.getD j 0 ≤ keys.getD (lowerBound ts keys - 1) 0 := by
      intro hjlt
      rcases Nat.lt_or_ge j (lowerBound ts keys - 1) with h | h
      · exact le_of_lt (hmono j (lowerBound ts keys - 1) h (by omega))
      · have hje : j = lowerBound ts keys - 1 := by omega
        rw [hje]
    rw [hbidx] at hb1
    by_cases hend : lowerBound ts keys < keys.length
    · -- both bracket candidates exist
      have hup : ts ≤ keys.getD (lowerBound ts keys) 0 := le_getD_lowerBound ts keys hend
      have hb2 := chosen_le_bracket_succ keys ts
        (by rw [hbidx]; omega)
      rw [hbidx] at hb2
      have hsucc : lowerBound ts keys - 1 + 1 = lowerBound ts keys := by omega
      rw [hsucc] at hb2
      rcases Nat.lt_or_ge j (lowerBound ts keys) with hjc | hjc
      · have := hjlow hjc
        omega
      · have hjup : keys.getD (lowerBound ts keys) 0 ≤ keys.getD j 0 := by
          rcases Nat.lt_or_ge (lowerBound ts keys) j with h | h
          · exact le_of_lt (hmono _ j h hj)
          · have hje : j = lowerBound ts keys := by omega
            rw [hje]
        omega
    · -- every key is below ts: the last key is nearest
      have hjlt : keys.getD j 0 < ts := getD_lt_of_lt_lowerBound ts keys j (by omega)
      have := hjlow (by omega)
      omega

theorem minTimeDiff_le_mem (keys : List Int) (ts : Int) (hs : List.Pairwise (· < ·) keys)
    (hne : keys ≠ []) (k : Int) (hk : k ∈ keys) :
    minTimeDiff keys ts ≤ (k - ts).natAbs := by
  obtain ⟨⟨j, hj⟩, rfl⟩ := List.mem_iff_get.mp hk
  have h := minTimeDiff_le keys ts hs hne j hj
  rwa [getD_eq_get 0 keys j hj] at h

theorem getD_default_of_le {α : Type} (d : α) :
    ∀ (l : List α) (i : Nat), l.length ≤ i → l.getD i d = d := by
  intro l
  induction l with
  | nil => intro i _; simp
  | cons a t ih =>
    intro i h
    cases i with
    | zero => simp at h
    | succ j => simpa using ih j (Nat.le_of_succ_le_succ h)

theorem mem_keysOf_of_lookup (k : Int) (v : VisualNFrame) :
    ∀ m : NFrameMap, mapLookup k m = some v → k ∈ keysOf m := by
  intro m hl
  by_contra hmem
  rw [← mapLookup_eq_none_iff k m] at hmem
  rw [hmem] at hl
  exact Option.noConfusion hl

theorem preInstall_completed (N : Nat) (tol : Int) (frame : VisualFrame) (st : NPipelineState) :
    (preInstallState N tol frame st).completed = st.completed := by
  rw [preInstallState]
  split <;> rfl

theorem preInstall_sorted (N : Nat) (tol : Int) (frame : VisualFrame) (st : NPipelineState)
    (hs : KeysSorted st.processing) : KeysSorted (preInstallState N tol frame st).processing := by
  rw [preInstallState]
  split
  · exact KeysSorted_mapInsert _ _ _ hs
  · exact hs

/-! ## Claim theorems -/

/-- C1: the claim says `processImage(cameraIndex, ...)` with `cameraIndex ≥ N`
fails synchronously with `IndexOutOfRange` before any task is enqueued, the
validity check accepting exactly `0..N-1`.  The source instead enqueues the
task unconditionally, and the only check — `CHECK_LE(camera_index,
pipelines_.size())` inside the asynchronous worker — accepts
`cameraIndex = N` (here `N = 2`), after which `pipelines_[N]` is read out of
bounds.  The claimed check `cameraIndex < N` rejects the same input. -/
theorem C1_out_of_range_enqueued_and_accepted :
    processImage 2 0 [] = [⟨2, 0⟩] ∧
    workIndexCheck 2 2 = true ∧
    claimedIndexCheck 2 2 = false := by decide

/-- C7: pipeline construction succeeds exactly when the input-set, output-set
and processor-list camera counts agree, the camera count and the worker count
are positive, the tolerance is non-negative, and every processor is present
with input and output cameras identical (same object) to the corresponding
camera-set entries. -/
theorem C7_construction_validation (numThreads : Nat)
    (pipelines : List (Option VisualPipelineModel)) (input output : NCameraModel) (tol : Int) :
    constructorChecks numThreads pipelines input output tol = true ↔
      (input.cameras.length = output.cameras.length ∧
       input.cameras.length = pipelines.length ∧
       0 < input.cameras.length ∧
       0 < numThreads ∧
       0 ≤ tol ∧
       ∀ i < pipelines.length, ∃ p, pipelines.getD i none = some p ∧
         input.cameras.getD i 0 = p.inputCameraId ∧
         output.cameras.getD i 0 = p.outputCameraId) := by
  rw [constructorChecks]
  simp only [Bool.and_eq_true, decide_eq_true_eq, List.all_eq_true, List.mem_range]
  constructor
  · rintro ⟨⟨⟨⟨⟨h1, h2⟩, h3⟩, h4⟩, h5⟩, h6⟩
    refine ⟨h2, h3, h1, h6, h4, ?_⟩
    intro i hi
    have hcheck := h5 i hi
    cases hp : pipelines.getD i none with
    | none => rw [hp] at hcheck; simp at hcheck
    | some p =>
      rw [hp] at hcheck
      simp only [Bool.and_eq_true, decide_eq_true_eq] at hcheck
      exact ⟨p, rfl, hcheck.1, hcheck.2⟩
  · rintro ⟨h2, h3, h1, h6, h4, h5⟩
    refine ⟨⟨⟨⟨⟨h1, h2⟩, h3⟩, h4⟩, ?_⟩, h6⟩
    intro i hi
    obtain ⟨p, hp, hin, hout⟩ := h5 i hi
    rw [hp]
    simp only [Bool.and_eq_true, decide_eq_true_eq]
    exact ⟨hin, hout⟩

/-- C2: for every per-camera frame delivered to `work`: on an empty
`processing_` map a new bundle keyed by the frame's timestamp is created;
otherwise the selected candidate's reference timestamp minimises the
absolute difference to the frame's timestamp over all in-progress bundles
(in particular over the two bracketing entries), a difference within — or
exactly equal to — the tolerance reuses that bundle, and a difference
exceeding the tolerance creates and uses a fresh empty bundle keyed by the
frame's own timestamp. -/
theorem C2_nearest_bundle_matching (N : Nat) (tol : Int) (frame : VisualFrame)
    (st : NPipelineState) (hs : KeysSorted st.processing) (htol : 0 ≤ tol) :
    (st.processing = [] →
      createNew st.processing tol frame.timestampNs = true ∧
      (preInstallState N tol frame st).processing = [(frame.timestampNs, emptyNFrame N)] ∧
      targetKey st.processing tol frame.timestampNs = frame.timestampNs) ∧
    (st.processing ≠ [] →
      chosenKey (keysOf st.processing) frame.timestampNs ∈ keysOf st.processing ∧
      (∀ k ∈ keysOf st.processing,
        minTimeDiff (keysOf st.processing) frame.timestampNs ≤ (k - frame.timestampNs).natAbs) ∧
      ((minTimeDiff (keysOf st.processing) frame.timestampNs : Int) ≤ tol →
        createNew st.processing tol frame.timestampNs = false ∧
        targetKey st.processing tol frame.timestampNs
          = chosenKey (keysOf st.processing) frame.timestampNs ∧
        preInstallState N tol frame st = st) ∧
      ((minTimeDiff (keysOf st.processing) frame.timestampNs : Int) > tol →
        createNew st.processing tol frame.timestampNs = true ∧
        targetKey st.processing tol frame.timestampNs = frame.timestampNs ∧
        mapLookup frame.timestampNs (preInstallState N tol frame st).processing
          = some (emptyNFrame N))) := by
  constructor
  · intro hemp
    have hcn : createNew st.processing tol frame.timestampNs = true := by
      simp [createNew, hemp]
    refine ⟨hcn, ?_, ?_⟩
    · have hcn' : createNew [] tol frame.timestampNs = true := by simp [createNew]
      simp [preInstallState, hemp, hcn', mapInsert]
    · simp [targetKey, hcn]
  · intro hne
    have hkne : keysOf st.processing ≠ [] := by
      simpa [keysOf] using hne
    refine ⟨chosenKey_mem _ _ hkne, fun k hk => minTimeDiff_le_mem _ _ hs hkne k hk, ?_, ?_⟩
    · intro hle
      have hcn : createNew st.processing tol frame.timestampNs = false := by
        simp only [createNew, Bool.or_eq_false_iff]
        constructor
        · simpa [List.isEmpty_iff] using hne
        · simpa using hle
      exact ⟨hcn, by simp [targetKey, hcn], by simp [preInstallState, hcn]⟩
    · intro hgt
      have hcn : createNew st.processing tol frame.timestampNs = true := by
        simp only [createNew, Bool.or_eq_true]
        right
        simpa using hgt
      refine ⟨hcn, by simp [targetKey, hcn], ?_⟩
      have hnotmem : frame.timestampNs ∉ keysOf st.processing := by
        intro hmem
        have h := minTimeDiff_le_mem _ frame.timestampNs hs hkne _ hmem
        simp at h
        omega
      have hnone : mapLookup frame.timestampNs st.processing = none :=
        (mapLookup_eq_none_iff _ _).mpr hnotmem
      simp only [preInstallState, hcn, if_pos rfl]
      exact mapLookup_mapInsert_self _ _ _ hnone

/-- C2 witness: a pipeline with one in-progress bundle at timestamp 100,
tolerance 3, and a frame at timestamp 103 (difference exactly equal to the
tolerance, which must reuse the bundle). -/
theorem C2_nearest_bundle_matching_witness :
    KeysSorted [((100 : Int), emptyNFrame 2)] ∧ (0 : Int) ≤ 3 ∧
    (([((100 : Int), emptyNFrame 2)] : NFrameMap) = [] →
      createNew [((100 : Int), emptyNFrame 2)] 3 103 = true ∧
      (preInstallState 2 3 ⟨0, 103, 7⟩ ⟨[((100 : Int), emptyNFrame 2)], []⟩).processing
        = [((103 : Int), emptyNFrame 2)] ∧
      targetKey [((100 : Int), emptyNFrame 2)] 3 103 = 103) ∧
    (([((100 : Int), emptyNFrame 2)] : NFrameMap) ≠ [] →
      chosenKey (keysOf [((100 : Int), emptyNFrame 2)]) 103
          ∈ keysOf [((100 : Int), emptyNFrame 2)] ∧
      (∀ k ∈ keysOf [((100 : Int), emptyNFrame 2)],
        minTimeDiff (keysOf [((100 : Int), emptyNFrame 2)]) 103 ≤ (k - 103).natAbs) ∧
      ((minTimeDiff (keysOf [((100 : Int), emptyNFrame 2)]) 103 : Int) ≤ 3 →
        createNew [((100 : Int), emptyNFrame 2)] 3 103 = false ∧
        targetKey [((100 : Int), emptyNFrame 2)] 3 103
          = chosenKey (keysOf [((100 : Int), emptyNFrame 2)]) 103 ∧
        preInstallState 2 3 ⟨0, 103, 7⟩ ⟨[((100 : Int), emptyNFrame 2)], []⟩
          = ⟨[((100 : Int), emptyNFrame 2)], []⟩) ∧
      ((minTimeDiff (keysOf [((100 : Int), emptyNFrame 2)]) 103 : Int) > 3 →
        createNew [((100 : Int), emptyNFrame 2)] 3 103 = true ∧
        targetKey [((100 : Int), emptyNFrame 2)] 3 103 = 103 ∧
        mapLookup 103
            (preInstallState 2 3 ⟨0, 103, 7⟩ ⟨[((100 : Int), emptyNFrame 2)], []⟩).processing
          = some (emptyNFrame 2))) := by
  refine ⟨?_, ?_, ?_⟩
  · simp [KeysSorted, keysOf]
  · norm_num
  · exact C2_nearest_bundle_matching 2 3 ⟨0, 103, 7⟩ ⟨[((100 : Int), emptyNFrame 2)], []⟩
      (by simp [KeysSorted, keysOf]) (by norm_num)

/-- C3: for every frame installation by `work`: when afterwards every camera
slot of the target bundle is filled, the bundle is removed from
`processing_` and inserted under the same key into `completed_` (where the
same critical section signals waiting consumers); when some slot is still
empty, the bundle stays in `processing_` and `completed_` is unchanged. -/
theorem C3_completion_moves_bundle (N : Nat) (tol : Int) (camIdx : Nat) (frame : VisualFrame)
    (st : NPipelineState) (nf : VisualNFrame)
    (hsP : KeysSorted st.processing)
    (hnf : mapLookup (targetKey st.processing tol frame.timestampNs)
             (preInstallState N tol frame st).processing = some nf)
    (hkc : mapLookup (targetKey st.processing tol frame.timestampNs) st.completed = none) :
    (allReceived (nf.setFrame camIdx frame) = true →
       mapLookup (targetKey st.processing tol frame.timestampNs)
           (work N tol camIdx frame st).processing = none ∧
       mapLookup (targetKey st.processing tol frame.timestampNs)
           (work N tol camIdx frame st).completed = some (nf.setFrame camIdx frame)) ∧
    (allReceived (nf.setFrame camIdx frame) = false →
       mapLookup (targetKey st.processing tol frame.timestampNs)
           (work N tol camIdx frame st).processing = some (nf.setFrame camIdx frame) ∧
       (work N tol camIdx frame st).completed = st.completed) := by
  have hs1 : KeysSorted (preInstallState N tol frame st).processing :=
    preInstall_sorted N tol frame st hsP
  constructor
  · intro hall
    rw [work]
    simp only [installAt, hnf, hall, eq_self_iff_true, if_true]
    constructor
    · exact mapLookup_mapErase_self _ _ hs1
    · rw [preInstall_completed]
      exact mapLookup_mapInsert_self _ _ _ hkc
  · intro hall
    rw [work]
    simp only [installAt, hnf, hall, Bool.false_eq_true, if_false]
    constructor
    · exact mapLookup_mapUpdate_self _ _ _ (by rw [hnf]; rfl)
    · exact preInstall_completed N tol frame st

/-- C3 witness: one camera, tolerance 0, empty state; the frame at
timestamp 5 completes its bundle, which moves to the completion queue. -/
theorem C3_completion_moves_bundle_witness :
    KeysSorted (([] : NFrameMap)) ∧
    mapLookup (targetKey ([] : NFrameMap) 0 5)
        (preInstallState 1 0 ⟨0, 5, 2⟩ ⟨[], []⟩).processing = some (emptyNFrame 1) ∧
    mapLookup (targetKey ([] : NFrameMap) 0 5) ([] : NFrameMap) = none ∧
    ((allReceived ((emptyNFrame 1).setFrame 0 ⟨0, 5, 2⟩) = true →
        mapLookup (targetKey ([] : NFrameMap) 0 5)
            (work 1 0 0 ⟨0, 5, 2⟩ ⟨[], []⟩).processing = none ∧
        mapLookup (targetKey ([] : NFrameMap) 0 5)
            (work 1 0 0 ⟨0, 5, 2⟩ ⟨[], []⟩).completed
          = some ((emptyNFrame 1).setFrame 0 ⟨0, 5, 2⟩)) ∧
     (allReceived ((emptyNFrame 1).setFrame 0 ⟨0, 5, 2⟩) = false →
        mapLookup (targetKey ([] : NFrameMap) 0 5)
            (work 1 0 0 ⟨0, 5, 2⟩ ⟨[], []⟩).processing
          = some ((emptyNFrame 1).setFrame 0 ⟨0, 5, 2⟩) ∧
        (work 1 0 0 ⟨0, 5, 2⟩ ⟨[], []⟩).completed = [])) := by
  refine ⟨by simp [KeysSorted, keysOf], by decide, by decide, ?_⟩
  exact C3_completion_moves_bundle 1 0 0 ⟨0, 5, 2⟩ ⟨[], []⟩ (emptyNFrame 1)
    (by simp [KeysSorted, keysOf]) (by decide) (by decide)

/-- C9: when a bundle completes while `completed_` already holds an entry
with the same reference timestamp, `completed_.insert` does not overwrite:
the previously stored bundle is kept unchanged and the newly completed
bundle is silently dropped, though it is still erased from `processing_`. -/
theorem C9_duplicate_completion_discarded (N : Nat) (tol : Int) (camIdx : Nat)
    (frame : VisualFrame) (st : NPipelineState) (nf oldB : VisualNFrame)
    (hsP : KeysSorted st.processing) (hsC : KeysSorted st.completed)
    (hnf : mapLookup (targetKey st.processing tol frame.timestampNs)
             (preInstallState N tol frame st).processing = some nf)
    (hdup : mapLookup (targetKey st.processing tol frame.timestampNs) st.completed = some oldB)
    (hall : allReceived (nf.setFrame camIdx frame) = true) :
    mapLookup (targetKey st.processing tol frame.timestampNs)
        (work N tol camIdx frame st).completed = some oldB ∧
    mapLookup (targetKey st.processing tol frame.timestampNs)
        (work N tol camIdx frame st).processing = none := by
  have hs1 : KeysSorted (preInstallState N tol frame st).processing :=
    preInstall_sorted N tol frame st hsP
  rw [work]
  simp only [installAt, hnf, hall, eq_self_iff_true, if_true]
  constructor
  · rw [preInstall_completed]
    rw [mapInsert_eq_of_mem _ _ _ hsC (mem_keysOf_of_lookup _ _ _ hdup)]
    exact hdup
  · exact mapLookup_mapErase_self _ _ hs1

/-- C9 witness: one camera, tolerance 0; a second frame at timestamp 5
completes a second bundle at a key already present in the completion queue;
the old bundle (payload 1) is kept and the new one (payload 9) dropped. -/
theorem C9_duplicate_completion_discarded_witness :
    KeysSorted (([] : NFrameMap)) ∧
    KeysSorted ([((5 : Int), VisualNFrame.mk [some ⟨0, 5, 1⟩])]) ∧
    mapLookup (targetKey ([] : NFrameMap) 0 5)
        (preInstallState 1 0 ⟨0, 5, 9⟩ ⟨[], [(5, ⟨[some ⟨0, 5, 1⟩]⟩)]⟩).processing
      = some (emptyNFrame 1) ∧
    mapLookup (targetKey ([] : NFrameMap) 0 5) [((5 : Int), VisualNFrame.mk [some ⟨0, 5, 1⟩])]
      = some (VisualNFrame.mk [some ⟨0, 5, 1⟩]) ∧
    allReceived ((emptyNFrame 1).setFrame 0 ⟨0, 5, 9⟩) = true ∧
    (mapLookup (targetKey ([] : NFrameMap) 0 5)
        (work 1 0 0 ⟨0, 5, 9⟩ ⟨[], [(5, ⟨[some ⟨0, 5, 1⟩]⟩)]⟩).completed
      = some (VisualNFrame.mk [some ⟨0, 5, 1⟩]) ∧
     mapLookup (targetKey ([] : NFrameMap) 0 5)
        (work 1 0 0 ⟨0, 5, 9⟩ ⟨[], [(5, ⟨[some ⟨0, 5, 1⟩]⟩)]⟩).processing = none) := by
  refine ⟨by simp [KeysSorted, keysOf], by simp [KeysSorted, keysOf], by decide, by decide,
    by decide, ?_⟩
  exact C9_duplicate_completion_discarded 1 0 0 ⟨0, 5, 9⟩ ⟨[], [(5, ⟨[some ⟨0, 5, 1⟩]⟩)]⟩
    (emptyNFrame 1) ⟨[some ⟨0, 5, 1⟩]⟩ (by simp [KeysSorted, keysOf])
    (by simp [KeysSorted, keysOf]) (by decide) (by decide) (by decide)

/-- C8: when `work` installs a frame into a camera slot of the selected
bundle that is already occupied, the old frame is overwritten (last writer
wins, a logged warning only): afterwards the bundle holds exactly the new
frame at that slot and every other slot is unchanged. -/
theorem C8_overwrite_last_writer_wins (N : Nat) (tol : Int) (camIdx : Nat)
    (frame oldF : VisualFrame) (st : NPipelineState) (nf : VisualNFrame)
    (hsP : KeysSorted st.processing)
    (hnew : createNew st.processing tol frame.timestampNs = false)
    (hnf : mapLookup (chosenKey (keysOf st.processing) frame.timestampNs) st.processing
      = some nf)
    (hold : nf.getFrameShared camIdx = some oldF)
    (hkc : mapLookup (chosenKey (keysOf st.processing) frame.timestampNs) st.completed
      = none) :
    bundleAt (work N tol camIdx frame st) (chosenKey (keysOf st.processing) frame.timestampNs)
      = some (nf.setFrame camIdx frame) ∧
    (nf.setFrame camIdx frame).getFrameShared camIdx = some frame ∧
    ∀ i, i ≠ camIdx → (nf.setFrame camIdx frame).getFrameShared i = nf.getFrameShared i := by
  have hcam : camIdx < nf.frames.length := by
    by_contra hge
    rw [VisualNFrame.getFrameShared, getD_default_of_le none nf.frames camIdx (by omega)] at hold
    exact Option.noConfusion hold
  have hpre : preInstallState N tol frame st = st := by
    rw [preInstallState]
    simp only [hnew, Bool.false_eq_true, if_false]
  have htk : targetKey st.processing tol frame.timestampNs
      = chosenKey (keysOf st.processing) frame.timestampNs := by
    rw [targetKey]
    simp only [hnew, Bool.false_eq_true, if_false]
  refine ⟨?_, getFrameShared_setFrame_self nf camIdx frame hcam,
    fun i hi => getFrameShared_setFrame_ne nf camIdx i frame (fun h => hi h.symm)⟩
  rw [work, hpre, htk]
  simp only [installAt, hnf]
  by_cases hall : allReceived (nf.setFrame camIdx frame) = true
  · simp only [hall, eq_self_iff_true, if_true]
    rw [bundleAt]
    simp only [mapLookup_mapErase_self _ _ hsP]
    exact mapLookup_mapInsert_self _ _ _ hkc
  · rw [Bool.not_eq_true] at hall
    simp only [hall, Bool.false_eq_true, if_false]
    rw [bundleAt]
    simp only [mapLookup_mapUpdate_self _ _ _ (by rw [hnf]; rfl)]

/-- C8 witness: a two-camera bundle at timestamp 10 whose slot 0 already
holds a frame of payload 1; a second frame for camera 0 (payload 2) at the
same timestamp overwrites the slot and leaves slot 1 unchanged. -/
theorem C8_overwrite_last_writer_wins_witness :
    KeysSorted ([((10 : Int), VisualNFrame.mk [some ⟨0, 10, 1⟩, none])]) ∧
    createNew [((10 : Int), VisualNFrame.mk [some ⟨0, 10, 1⟩, none])] 0 10 = false ∧
    mapLookup (chosenKey (keysOf [((10 : Int), VisualNFrame.mk [some ⟨0, 10, 1⟩, none])]) 10)
        [((10 : Int), VisualNFrame.mk [some ⟨0, 10, 1⟩, none])]
      = some (VisualNFrame.mk [some ⟨0, 10, 1⟩, none]) ∧
    (VisualNFrame.mk [some ⟨0, 10, 1⟩, none]).getFrameShared 0 = some ⟨0, 10, 1⟩ ∧
    mapLookup (chosenKey (keysOf [((10 : Int), VisualNFrame.mk [some ⟨0, 10, 1⟩, none])]) 10)
        ([] : NFrameMap) = none ∧
    (bundleAt
        (work 2 0 0 ⟨0, 10, 2⟩ ⟨[((10 : Int), VisualNFrame.mk [some ⟨0, 10, 1⟩, none])], []⟩)
        (chosenKey (keysOf [((10 : Int), VisualNFrame.mk [some ⟨0, 10, 1⟩, none])]) 10)
      = some ((VisualNFrame.mk [some ⟨0, 10, 1⟩, none]).setFrame 0 ⟨0, 10, 2⟩) ∧
     ((VisualNFrame.mk [some ⟨0, 10, 1⟩, none]).setFrame 0 ⟨0, 10, 2⟩).getFrameShared 0
      = some ⟨0, 10, 2⟩ ∧
     ∀ i, i ≠ 0 →
       ((VisualNFrame.mk [some ⟨0, 10, 1⟩, none]).setFrame 0 ⟨0, 10, 2⟩).getFrameShared i
        = (VisualNFrame.mk [some ⟨0, 10, 1⟩, none]).getFrameShared i) := by
  refine ⟨by simp [KeysSorted, keysOf], by decide, by decide, by decide, by decide, ?_⟩
  exact C8_overwrite_last_writer_wins 2 0 0 ⟨0, 10, 2⟩ ⟨0, 10, 1⟩
    ⟨[((10 : Int), VisualNFrame.mk [some ⟨0, 10, 1⟩, none])], []⟩
    (VisualNFrame.mk [some ⟨0, 10, 1⟩, none])
    (by simp [KeysSorted, keysOf]) (by decide) (by decide) (by decide) (by decide)

theorem KeysSorted_iff_pairwise (m : NFrameMap) :
    KeysSorted m ↔ List.Pairwise (fun p q : Int × VisualNFrame => p.1 < q.1) m := by
  rw [KeysSorted, keysOf, List.pairwise_map]

theorem getLast_mem_max (m : NFrameMap)
    (hs : List.Pairwise (fun p q : Int × VisualNFrame => p.1 < q.1) m)
    (e : Int × VisualNFrame) (hl : m.getLast? = some e) : e ∈ m ∧ ∀ p ∈ m, p.1 ≤ e.1 := by
  induction m with
  | nil => exact Option.noConfusion hl
  | cons a t ih =>
    rw [List.pairwise_cons] at hs
    obtain ⟨hhead, htail⟩ := hs
    cases t with
    | nil =>
      simp only [List.getLast?_singleton, Option.some.injEq] at hl
      subst hl
      exact ⟨List.mem_singleton_self a, by intro p hp; rw [List.mem_singleton] at hp; rw [hp]⟩
    | cons b t' =>
      rw [List.getLast?_cons_cons] at hl
      obtain ⟨hmem, hmax⟩ := ih htail hl
      refine ⟨List.mem_cons_of_mem a hmem, ?_⟩
      intro p hp
      rcases List.mem_cons.mp hp with rfl | hp
      · exact le_of_lt (hhead e hmem)
      · exact hmax p hp

theorem mem_dropWhile_sorted (c : Int) :
    ∀ m : NFrameMap, List.Pairwise (fun p q : Int × VisualNFrame => p.1 < q.1) m →
    ∀ p : Int × VisualNFrame,
      (p ∈ m.dropWhile (fun q => q.1 ≤ c) ↔ p ∈ m ∧ c < p.1) := by
  intro m
  induction m with
  | nil => intro _ p; simp
  | cons a t ih =>
    intro hs p
    rw [List.pairwise_cons] at hs
    obtain ⟨hhead, htail⟩ := hs
    rw [List.dropWhile_cons]
    by_cases ha : a.1 ≤ c
    · rw [if_pos (by simpa using ha)]
      rw [ih htail p]
      constructor
      · rintro ⟨hp, hc⟩
        exact ⟨List.mem_cons_of_mem a hp, hc⟩
      · rintro ⟨hp, hc⟩
        rcases List.mem_cons.mp hp with rfl | hp
        · omega
        · exact ⟨hp, hc⟩
    · rw [if_neg (by simpa using ha)]
      constructor
      · intro hp
        refine ⟨hp, ?_⟩
        rcases List.mem_cons.mp hp with rfl | hp
        · omega
        · have := hhead p hp
          omega
      · exact fun h => h.1

/-- C4: `getLatestAndClear` on a non-empty completion queue returns the
completed bundle with the largest reference timestamp, clears the whole
completion queue, and drops from `processing_` exactly the in-progress
bundles whose reference timestamp is less than or equal to the returned
one (strictly newer in-progress bundles are kept); in particular, after
single-camera completions at timestamps 100, 200, 300 with tolerance 0 it
returns the bundle at 300 and leaves both maps empty. -/
theorem C4_getLatestAndClear_newest_and_drop_stale (st : NPipelineState)
    (e : Int × VisualNFrame)
    (hsP : KeysSorted st.processing) (hsC : KeysSorted st.completed)
    (hlast : st.completed.getLast? = some e) :
    (getLatestAndClear st).1 = some e ∧
    e ∈ st.completed ∧
    (∀ p ∈ st.completed, p.1 ≤ e.1) ∧
    (getLatestAndClear st).2.completed = [] ∧
    (∀ p : Int × VisualNFrame,
       p ∈ (getLatestAndClear st).2.processing ↔ p ∈ st.processing ∧ e.1 < p.1) ∧
    getLatestAndClear (runAll 1 0 [⟨0, 100, 1⟩, ⟨0, 200, 2⟩, ⟨0, 300, 3⟩])
      = (some (300, ⟨[some ⟨0, 300, 3⟩]⟩), ⟨[], []⟩) := by
  obtain ⟨hmem, hmax⟩ := getLast_mem_max st.completed
    ((KeysSorted_iff_pairwise _).mp hsC) e hlast
  rw [getLatestAndClear, hlast]
  refine ⟨rfl, hmem, hmax, rfl, ?_, by decide⟩
  intro p
  exact mem_dropWhile_sorted e.1 st.processing ((KeysSorted_iff_pairwise _).mp hsP) p

/-- C4 witness: completed bundles at 100 and 300, in-progress bundles at
200 and 400; the call returns the bundle at 300, clears the queue, drops
the in-progress bundle at 200 and keeps the one at 400. -/
theorem C4_getLatestAndClear_newest_and_drop_stale_witness :
    KeysSorted ([((200 : Int), emptyNFrame 1), (400, emptyNFrame 1)]) ∧
    KeysSorted ([((100 : Int), VisualNFrame.mk [some ⟨0, 100, 1⟩]),
                 (300, VisualNFrame.mk [some ⟨0, 300, 3⟩])]) ∧
    ([((100 : Int), VisualNFrame.mk [some ⟨0, 100, 1⟩]),
      (300, VisualNFrame.mk [some ⟨0, 300, 3⟩])].getLast?
      = some (300, VisualNFrame.mk [some ⟨0, 300, 3⟩])) ∧
    ((getLatestAndClear ⟨[(200, emptyNFrame 1), (400, emptyNFrame 1)],
        [(100, ⟨[some ⟨0, 100, 1⟩]⟩), (300, ⟨[some ⟨0, 300, 3⟩]⟩)]⟩).1
      = some (300, ⟨[some ⟨0, 300, 3⟩]⟩) ∧
     ((300 : Int), VisualNFrame.mk [some ⟨0, 300, 3⟩])
       ∈ [((100 : Int), VisualNFrame.mk [some ⟨0, 100, 1⟩]),
          (300, VisualNFrame.mk [some ⟨0, 300, 3⟩])] ∧
     (∀ p ∈ [((100 : Int), VisualNFrame.mk [some ⟨0, 100, 1⟩]),
             (300, VisualNFrame.mk [some ⟨0, 300, 3⟩])],
        p.1 ≤ (300 : Int)) ∧
     (getLatestAndClear ⟨[(200, emptyNFrame 1), (400, emptyNFrame 1)],
        [(100, ⟨[some ⟨0, 100, 1⟩]⟩), (300, ⟨[some ⟨0, 300, 3⟩]⟩)]⟩).2.completed = [] ∧
     (∀ p : Int × VisualNFrame,
        p ∈ (getLatestAndClear ⟨[(200, emptyNFrame 1), (400, emptyNFrame 1)],
          [(100, ⟨[some ⟨0, 100, 1⟩]⟩), (300, ⟨[some ⟨0, 300, 3⟩]⟩)]⟩).2.processing
          ↔ p ∈ [((200 : Int), emptyNFrame 1), (400, emptyNFrame 1)] ∧ (300 : Int) < p.1) ∧
     getLatestAndClear (runAll 1 0 [⟨0, 100, 1⟩, ⟨0, 200, 2⟩, ⟨0, 300, 3⟩])
       = (some (300, ⟨[some ⟨0, 300, 3⟩]⟩), ⟨[], []⟩)) := by
  refine ⟨by simp [KeysSorted, keysOf], by simp [KeysSorted, keysOf], by decide, ?_⟩
  exact C4_getLatestAndClear_newest_and_drop_stale
    ⟨[(200, emptyNFrame 1), (400, emptyNFrame 1)],
     [(100, ⟨[some ⟨0, 100, 1⟩]⟩), (300, ⟨[some ⟨0, 300, 3⟩]⟩)]⟩
    (300, ⟨[some ⟨0, 300, 3⟩]⟩)
    (by simp [KeysSorted, keysOf]) (by simp [KeysSorted, keysOf]) (by decide)

/-- C5: `getNext` on a non-empty completion queue removes and returns the
bundle with the smallest reference timestamp; on an empty queue it returns
`none` and leaves the state unchanged; and across consecutive `getNext`
calls the returned reference timestamps are non-decreasing. -/
theorem C5_getNext_oldest_first (st : NPipelineState) (hsC : KeysSorted st.completed) :
    (st.completed = [] → getNext st = (none, st)) ∧
    (∀ e tq, st.completed = e :: tq →
       getNext st = (some e, ⟨st.processing, tq⟩) ∧ ∀ p ∈ st.completed, e.1 ≤ p.1) ∧
    (∀ a b st1 st2, getNext st = (some a, st1) → getNext st1 = (some b, st2) → a.1 ≤ b.1) := by
  rw [KeysSorted_iff_pairwise] at hsC
  refine ⟨?_, ?_, ?_⟩
  · intro h
    rw [getNext, h]
  · intro e tq hc
    rw [getNext, hc]
    refine ⟨rfl, ?_⟩
    rw [hc] at hsC
    rw [List.pairwise_cons] at hsC
    intro p hp
    rw [List.mem_cons] at hp
    rcases hp with rfl | hp
    · exact le_refl _
    · exact le_of_lt (hsC.1 p hp)
  · intro a b st1 st2 h1 h2
    cases hc : st.completed with
    | nil => rw [getNext, hc] at h1; exact Option.noConfusion (congrArg Prod.fst h1)
    | cons e tq =>
      rw [getNext, hc] at h1
      have hae : a = e := by
        have := congrArg Prod.fst h1
        simpa using this.symm
      have hst1 : st1 = ⟨st.processing, tq⟩ := by
        have := congrArg Prod.snd h1
        simpa using this.symm
      cases htq : tq with
      | nil =>
        rw [getNext] at h2
        rw [hst1, htq] at h2
        exact Option.noConfusion (congrArg Prod.fst h2)
      | cons e2 tq2 =>
        rw [getNext] at h2
        rw [hst1, htq] at h2
        have hbe : b = e2 := by
          have := congrArg Prod.fst h2
          simpa using this.symm
        rw [hc, htq] at hsC
        rw [List.pairwise_cons] at hsC
        rw [hae, hbe]
        exact le_of_lt (hsC.1 e2 (List.mem_cons_self e2 tq2))

/-- C5 witness: a completion queue holding bundles at timestamps 1 and 2. -/
theorem C5_getNext_oldest_first_witness :
    KeysSorted ([((1 : Int), emptyNFrame 1), (2, emptyNFrame 1)]) ∧
    ((([((1 : Int), emptyNFrame 1), (2, emptyNFrame 1)] : NFrameMap) = [] →
       getNext ⟨[], [(1, emptyNFrame 1), (2, emptyNFrame 1)]⟩
         = (none, ⟨[], [(1, emptyNFrame 1), (2, emptyNFrame 1)]⟩)) ∧
     (∀ e tq, ([((1 : Int), emptyNFrame 1), (2, emptyNFrame 1)] : NFrameMap) = e :: tq →
       getNext ⟨[], [(1, emptyNFrame 1), (2, emptyNFrame 1)]⟩ = (some e, ⟨[], tq⟩) ∧
       ∀ p ∈ ([((1 : Int), emptyNFrame 1), (2, emptyNFrame 1)] : NFrameMap), e.1 ≤ p.1) ∧
     (∀ a b st1 st2,
       getNext ⟨[], [(1, emptyNFrame 1), (2, emptyNFrame 1)]⟩ = (some a, st1) →
       getNext st1 = (some b, st2) → a.1 ≤ b.1)) := by
  refine ⟨by simp [KeysSorted, keysOf], ?_⟩
  exact C5_getNext_oldest_first ⟨[], [(1, emptyNFrame 1), (2, emptyNFrame 1)]⟩
    (by simp [KeysSorted, keysOf])

theorem lowerBound_eq_of (keys : List Int) (ts : Int) (m : Nat) (hm : m ≤ keys.length)
    (hbelow : ∀ i, i < m → keys.getD i 0 < ts)
    (habove : m < keys.length → ts ≤ keys.getD m 0) :
    lowerBound ts keys = m := by
  rcases Nat.lt_trichotomy (lowerBound ts keys) m with h | h | h
  · exfalso
    have hlt : lowerBound ts keys < keys.length := by omega
    have h1 := le_getD_lowerBound ts keys hlt
    have h2 := hbelow _ h
    omega
  · exact h
  · exfalso
    have hlb := lowerBound_le_length ts keys
    have hmlt : m < keys.length := by omega
    have h1 := habove hmlt
    have h2 := getD_lt_of_lt_lowerBound ts keys m h
    omega

/-- C10: when a frame's timestamp is exactly equidistant from the two
in-progress bundles bracketing it, the candidate search selects the earlier
(smaller reference timestamp) bundle, because the replacement comparison
uses a strict less-than on the timestamp difference. -/
theorem C10_equidistant_tie_prefers_earlier (keys : List Int) (ts kl ku : Int)
    (hs : List.Pairwise (· < ·) keys)
    (hl : kl ∈ keys) (hu : ku ∈ keys)
    (hkl : kl ≤ ts) (hku : ts < ku)
    (hbracket : ∀ k ∈ keys, k ≤ kl ∨ ku ≤ k)
    (heq : (kl - ts).natAbs = (ku - ts).natAbs) :
    chosenKey keys ts = kl := by
  have hklts : kl < ts := by omega
  obtain ⟨⟨jl, hjl⟩, hgl⟩ := List.mem_iff_get.mp hl
  obtain ⟨⟨ju, hju⟩, hgu⟩ := List.mem_iff_get.mp hu
  have hdl : keys.getD jl 0 = kl := by rw [getD_eq_get 0 keys jl hjl, hgl]
  have hdu : keys.getD ju 0 = ku := by rw [getD_eq_get 0 keys ju hju, hgu]
  have hmono : ∀ a b : Nat, a < b → b < keys.length → keys.getD a 0 < keys.getD b 0 :=
    fun a b hab hb => sorted_getD_lt hs hab hb
  have hjlju : jl < ju := by
    rcases Nat.lt_trichotomy jl ju with h | h | h
    · exact h
    · exfalso; rw [h, hdu] at hdl; omega
    · exfalso
      have := hmono ju jl h hjl
      omega
  have hsucc : ju = jl + 1 := by
    by_contra hne
    have hlt : jl + 1 < ju := by omega
    have hmem : keys.getD (jl + 1) 0 ∈ keys := by
      rw [getD_eq_get 0 keys (jl + 1) (by omega)]
      exact List.get_mem keys _ _
    have h1 : kl < keys.getD (jl + 1) 0 := by
      have := hmono jl (jl + 1) (by omega) (by omega)
      omega
    have h2 : keys.getD (jl + 1) 0 < ku := by
      have := hmono (jl + 1) ju hlt hju
      omega
    rcases hbracket _ hmem with h | h <;> omega
  have hlb : lowerBound ts keys = jl + 1 := by
    apply lowerBound_eq_of keys ts (jl + 1) (by omega)
    · intro i hi
      rcases Nat.lt_or_ge i jl with h | h
      · have := hmono i jl h hjl
        omega
      · have hij : i = jl := by omega
        rw [hij, hdl]
        omega
    · intro _
      rw [show jl + 1 = ju from hsucc.symm, hdu]
      omega
  have hbi : bracketIdx keys ts = jl := by
    rw [bracketIdx, hlb]
    simp
  have hjl1 : jl + 1 < keys.length := by omega
  rw [chosenKey, chosenIdx, hbi, if_pos hjl1]
  have hged : keys.getD (jl + 1) 0 = ku := by
    rw [show jl + 1 = ju from hsucc.symm, hdu]
  rw [hged, hdl]
  rw [if_neg (by omega : ¬ ((ku - ts).natAbs < (kl - ts).natAbs))]
  exact hdl

/-- C10 witness: bundles at 100 and 200, frame timestamp 150. -/
theorem C10_equidistant_tie_prefers_earlier_witness :
    List.Pairwise (· < ·) [(100 : Int), 200] ∧
    (100 : Int) ∈ [(100 : Int), 200] ∧ (200 : Int) ∈ [(100 : Int), 200] ∧
    (100 : Int) ≤ 150 ∧ (150 : Int) < 200 ∧
    (∀ k ∈ [(100 : Int), 200], k ≤ 100 ∨ 200 ≤ k) ∧
    ((100 : Int) - 150).natAbs = ((200 : Int) - 150).natAbs ∧
    chosenKey [(100 : Int), 200] 150 = 100 := by
  refine ⟨by decide, by decide, by decide, by decide, by decide, by decide, by decide, ?_⟩
  exact C10_equidistant_tie_prefers_earlier [(100 : Int), 200] 150 100 200
    (by decide) (by decide) (by decide) (by decide) (by decide) (by decide) (by decide)

theorem chosenKey_singleton (k ts : Int) : chosenKey [k] ts = k := by
  rw [chosenKey, chosenIdx, bracketIdx]
  by_cases h : ts ≤ k
  · simp [lowerBound, h]
  · simp [lowerBound, h]

theorem work_single (N : Nat) (tol t0 : Int) (nf : VisualNFrame) (c : Nat) (f : VisualFrame)
    (htol : ((t0 - f.timestampNs).natAbs : Int) ≤ tol) :
    work N tol c f ⟨[(t0, nf)], []⟩ =
      if allReceived (nf.setFrame c f) then ⟨[], [(t0, nf.setFrame c f)]⟩
      else ⟨[(t0, nf.setFrame c f)], []⟩ := by
  have hck : chosenKey (keysOf [(t0, nf)]) f.timestampNs = t0 :=
    chosenKey_singleton t0 f.timestampNs
  have hmd : minTimeDiff (keysOf [(t0, nf)]) f.timestampNs = (t0 - f.timestampNs).natAbs := by
    rw [minTimeDiff, hck]
  have hcn : createNew [(t0, nf)] tol f.timestampNs = false := by
    rw [createNew, hmd]
    simp only [List.isEmpty_cons, Bool.false_or, decide_eq_false_iff_not, not_lt]
    exact htol
  have htk : targetKey [(t0, nf)] tol f.timestampNs = t0 := by
    rw [targetKey]
    simp only [hcn, Bool.false_eq_true, if_false]
    exact hck
  have hpre : preInstallState N tol f ⟨[(t0, nf)], []⟩ = ⟨[(t0, nf)], []⟩ := by
    rw [preInstallState]
    simp only [hcn, Bool.false_eq_true, if_false]
  have hlk : mapLookup t0 [(t0, nf)] = some nf := by
    rw [mapLookup, if_pos rfl]
  rw [work, htk, hpre]
  simp only [installAt, hlk]
  have he : mapErase t0 [(t0, nf)] = [] := by rw [mapErase, if_pos rfl]
  have hu : mapUpdate t0 (nf.setFrame c f) [(t0, nf)] = [(t0, nf.setFrame c f)] := by
    rw [mapUpdate, if_pos rfl]
  rw [he, hu]
  rfl

theorem work_empty (N : Nat) (tol : Int) (c : Nat) (f : VisualFrame) :
    work N tol c f ⟨[], []⟩ =
      if allReceived ((emptyNFrame N).setFrame c f) then
        ⟨[], [(f.timestampNs, (emptyNFrame N).setFrame c f)]⟩
      else ⟨[(f.timestampNs, (emptyNFrame N).setFrame c f)], []⟩ := by
  have hcn : createNew [] tol f.timestampNs = true := by
    rw [createNew]
    simp [List.isEmpty_nil]
  have htk : targetKey [] tol f.timestampNs = f.timestampNs := by
    rw [targetKey]
    simp only [hcn, if_true]
  have hpre : preInstallState N tol f ⟨[], []⟩
      = ⟨[(f.timestampNs, emptyNFrame N)], []⟩ := by
    rw [preInstallState]
    simp only [hcn, if_true]
    rfl
  have hlk : mapLookup f.timestampNs [(f.timestampNs, emptyNFrame N)]
      = some (emptyNFrame N) := by
    rw [mapLookup, if_pos rfl]
  rw [work, htk, hpre]
  simp only [installAt, hlk]
  have he : mapErase f.timestampNs [(f.timestampNs, emptyNFrame N)] = [] := by
    rw [mapErase, if_pos rfl]
  have hu : mapUpdate f.timestampNs ((emptyNFrame N).setFrame c f)
        [(f.timestampNs, emptyNFrame N)]
      = [(f.timestampNs, (emptyNFrame N).setFrame c f)] := by
    rw [mapUpdate, if_pos rfl]
  rw [he, hu]
  rfl

theorem C6_aux (N : Nat) (tol t0 : Int) :
    ∀ (suf : List VisualFrame), ∀ (pre : List VisualFrame) (nf : VisualNFrame),
    suf ≠ [] →
    ((pre ++ suf).map VisualFrame.cameraIndex).Perm (List.range N) →
    (∀ f ∈ suf, ((t0 - f.timestampNs).natAbs : Int) ≤ tol) →
    nf.frames.length = N →
    (∀ i, nf.isFrameSet i = decide (i ∈ pre.map VisualFrame.cameraIndex)) →
    ∃ nf2 : VisualNFrame,
      suf.foldl (fun st f => work N tol f.cameraIndex f st) ⟨[(t0, nf)], []⟩
        = ⟨[], [(t0, nf2)]⟩ ∧ allReceived nf2 = true ∧ nf2.frames.length = N := by
  intro suf
  induction suf with
  | nil => intro pre nf hne; exact absurd rfl hne
  | cons f suf' ih =>
    intro pre nf _ hperm htol hlen hsets
    have hcmem : f.cameraIndex ∈ (pre ++ f :: suf').map VisualFrame.cameraIndex :=
      List.mem_map_of_mem _ (List.mem_append_right pre (List.mem_cons_self f suf'))
    have hcN : f.cameraIndex < N := List.mem_range.mp (hperm.mem_iff.mp hcmem)
    have hlen2 : (nf.setFrame f.cameraIndex f).frames.length = N := by
      rw [length_setFrame, hlen]
    have hsets2 : ∀ i, (nf.setFrame f.cameraIndex f).isFrameSet i
        = decide (i ∈ (pre ++ [f]).map VisualFrame.cameraIndex) := by
      intro i
      by_cases hic : i = f.cameraIndex
      · subst hic
        rw [isFrameSet_setFrame_self nf _ f (by rw [hlen]; exact hcN)]
        have hmem : f.cameraIndex ∈ (pre ++ [f]).map VisualFrame.cameraIndex := by
          apply List.mem_map_of_mem
          exact List.mem_append_right pre (List.mem_singleton_self f)
        exact (decide_eq_true hmem).symm
      · rw [isFrameSet_setFrame_ne nf f.cameraIndex i f (fun h => hic h.symm), hsets i]
        apply decide_eq_decide.mpr
        constructor
        · intro h
          rw [List.map_append]
          exact List.mem_append_left _ h
        · intro h
          rw [List.map_append] at h
          rcases List.mem_append.mp h with h | h
          · exact h
          · exfalso
            simp only [List.map_cons, List.map_nil, List.mem_singleton] at h
            exact hic h
    rw [List.foldl_cons]
    have hstep := work_single N tol t0 nf f.cameraIndex f (htol f (List.mem_cons_self f suf'))
    rcases suf' with _ | ⟨g, rest⟩
    · have hall : allReceived (nf.setFrame f.cameraIndex f) = true := by
        rw [allReceived_iff]
        intro i hi
        rw [hsets2 i]
        rw [VisualNFrame.numFrames, hlen2] at hi
        exact decide_eq_true (hperm.mem_iff.mpr (List.mem_range.mpr hi))
      rw [hstep, if_pos hall, List.foldl_nil]
      exact ⟨nf.setFrame f.cameraIndex f, rfl, hall, hlen2⟩
    · have hsplit : pre ++ f :: g :: rest = (pre ++ [f]) ++ g :: rest := by
        rw [List.append_assoc, List.singleton_append]
      have hnodup : ((pre ++ f :: g :: rest).map VisualFrame.cameraIndex).Nodup :=
        hperm.nodup_iff.mpr (List.nodup_range N)
      have hdisj : ∀ a, a ∈ (pre ++ [f]).map VisualFrame.cameraIndex →
          a ∉ (g :: rest).map VisualFrame.cameraIndex := by
        rw [hsplit, List.map_append] at hnodup
        exact fun a ha => (List.nodup_append.mp hnodup).2.2 ha
      have hgmem : g.cameraIndex ∈ (g :: rest).map VisualFrame.cameraIndex :=
        List.mem_map_of_mem _ (List.mem_cons_self g rest)
      have hgN : g.cameraIndex < N := by
        apply List.mem_range.mp
        apply hperm.mem_iff.mp
        apply List.mem_map_of_mem
        apply List.mem_append_right
        exact List.mem_cons_of_mem f (List.mem_cons_self g rest)
      have hnotall : allReceived (nf.setFrame f.cameraIndex f) = false := by
        by_contra h
        rw [Bool.not_eq_false, allReceived_iff] at h
        have hset := h g.cameraIndex (by rw [VisualNFrame.numFrames, hlen2]; exact hgN)
        rw [hsets2, decide_eq_true_eq] at hset
        exact hdisj g.cameraIndex hset hgmem
      rw [hstep, if_neg (by rw [hnotall]; exact Bool.false_ne_true)]
      have hperm2 : (((pre ++ [f]) ++ g :: rest).map VisualFrame.cameraIndex).Perm
          (List.range N) := by
        rw [← hsplit]
        exact hperm
      obtain ⟨nf3, hfold, hall3, hlen3⟩ := ih (pre ++ [f]) (nf.setFrame f.cameraIndex f)
        (List.cons_ne_nil g rest) hperm2
        (fun f' hf' => htol f' (List.mem_cons_of_mem f hf')) hlen2 hsets2
      exact ⟨nf3, hfold, hall3, hlen3⟩

/-- C6: for every valid N-camera configuration, delivering exactly one frame
per camera (in any order) with timestamps pairwise within the tolerance
yields exactly one completed bundle with all N slots filled and an empty
processing index. -/
theorem C6_one_bundle_per_sync_group (N : Nat) (tol : Int) (frames : List VisualFrame)
    (hN : 0 < N)
    (hperm : (frames.map VisualFrame.cameraIndex).Perm (List.range N))
    (htol : ∀ f ∈ frames, ∀ g ∈ frames,
      ((f.timestampNs - g.timestampNs).natAbs : Int) ≤ tol) :
    ∃ (k : Int) (nf : VisualNFrame),
      runAll N tol frames = ⟨[], [(k, nf)]⟩ ∧ allReceived nf = true ∧
      nf.frames.length = N := by
  cases hfr : frames with
  | nil =>
    exfalso
    rw [hfr] at hperm
    have := hperm.length_eq
    simp at this
    omega
  | cons f0 rest =>
    subst hfr
    have hc0N : f0.cameraIndex < N := by
      apply List.mem_range.mp
      apply hperm.mem_iff.mp
      exact List.mem_map_of_mem _ (List.mem_cons_self f0 rest)
    have hlen1 : ((emptyNFrame N).setFrame f0.cameraIndex f0).frames.length = N := by
      rw [length_setFrame, emptyNFrame]
      exact List.length_replicate N none
    have hsets1 : ∀ i, ((emptyNFrame N).setFrame f0.cameraIndex f0).isFrameSet i
        = decide (i ∈ [f0].map VisualFrame.cameraIndex) := by
      intro i
      by_cases hic : i = f0.cameraIndex
      · subst hic
        rw [isFrameSet_setFrame_self (emptyNFrame N) _ f0
          (by rw [emptyNFrame]; simpa using hc0N)]
        have hmem : f0.cameraIndex ∈ [f0].map VisualFrame.cameraIndex := by
          exact List.mem_map_of_mem _ (List.mem_singleton_self f0)
        exact (decide_eq_true hmem).symm
      · rw [isFrameSet_setFrame_ne (emptyNFrame N) f0.cameraIndex i f0 (fun h => hic h.symm)]
        rw [isFrameSet_emptyNFrame]
        have hnot : i ∉ [f0].map VisualFrame.cameraIndex := by
          simp only [List.map_cons, List.map_nil, List.mem_singleton]
          exact hic
        exact (decide_eq_false hnot).symm
    rw [runAll, List.foldl_cons, work_empty N tol f0.cameraIndex f0]
    rcases rest with _ | ⟨g, rest2⟩
    · have hall : allReceived ((emptyNFrame N).setFrame f0.cameraIndex f0) = true := by
        rw [allReceived_iff]
        intro i hi
        rw [hsets1 i]
        rw [VisualNFrame.numFrames, hlen1] at hi
        exact decide_eq_true (hperm.mem_iff.mpr (List.mem_range.mpr hi))
      rw [if_pos hall, List.foldl_nil]
      exact ⟨f0.timestampNs, (emptyNFrame N).setFrame f0.cameraIndex f0, rfl, hall, hlen1⟩
    · have hnodup : ((f0 :: g :: rest2).map VisualFrame.cameraIndex).Nodup :=
        hperm.nodup_iff.mpr (List.nodup_range N)
      have hgmem : g ∈ g :: rest2 := List.mem_cons_self g rest2
      have hgN : g.cameraIndex < N := by
        apply List.mem_range.mp
        apply hperm.mem_iff.mp
        exact List.mem_map_of_mem _ (List.mem_cons_of_mem f0 hgmem)
      have hne0 : g.cameraIndex ≠ f0.cameraIndex := by
        intro h
        rw [List.map_cons, List.nodup_cons] at hnodup
        exact hnodup.1 (h ▸ List.mem_map_of_mem _ hgmem)
      have hnotall : allReceived ((emptyNFrame N).setFrame f0.cameraIndex f0) = false := by
        by_contra h
        rw [Bool.not_eq_false, allReceived_iff] at h
        have hset := h g.cameraIndex (by rw [VisualNFrame.numFrames, hlen1]; exact hgN)
        rw [hsets1, decide_eq_true_eq] at hset
        simp only [List.map_cons, List.map_nil, List.mem_singleton] at hset
        exact hne0 hset
      rw [if_neg (by rw [hnotall]; exact Bool.false_ne_true)]
      obtain ⟨nf2, hfold, hall2, hlen2⟩ := C6_aux N tol f0.timestampNs (g :: rest2) [f0]
        ((emptyNFrame N).setFrame f0.cameraIndex f0)
        (List.cons_ne_nil g rest2)
        (by rw [List.singleton_append]; exact hperm)
        (fun f hf => htol f0 (List.mem_cons_self f0 (g :: rest2)) f
          (List.mem_cons_of_mem f0 hf))
        hlen1 hsets1
      exact ⟨f0.timestampNs, nf2, hfold, hall2, hlen2⟩

/-- C6 witness: two cameras, tolerance 5, frames delivered in reversed
camera order at timestamps 10 and 11. -/
theorem C6_one_bundle_per_sync_group_witness :
    0 < 2 ∧
    (([⟨1, 10, 0⟩, ⟨0, 11, 1⟩] : List VisualFrame).map VisualFrame.cameraIndex).Perm
      (List.range 2) ∧
    (∀ f ∈ ([⟨1, 10, 0⟩, ⟨0, 11, 1⟩] : List VisualFrame),
      ∀ g ∈ ([⟨1, 10, 0⟩, ⟨0, 11, 1⟩] : List VisualFrame),
        ((f.timestampNs - g.timestampNs).natAbs : Int) ≤ 5) ∧
    ∃ (k : Int) (nf : VisualNFrame),
      runAll 2 5 [⟨1, 10, 0⟩, ⟨0, 11, 1⟩] = ⟨[], [(k, nf)]⟩ ∧ allReceived nf = true ∧
      nf.frames.length = 2 := by
  refine ⟨by decide, by decide, by decide, ?_⟩
  exact C6_one_bundle_per_sync_group 2 5 [⟨1, 10, 0⟩, ⟨0, 11, 1⟩]
    (by decide) (by decide) (by decide)

end AslamCV
